import Mathlib

/-!
Verification of the quantum-chemistry core: the Cartesian AO basis builder
(`src/orbital.rs`) and the core-Hamiltonian initial-guess solver
(`src/guess.rs`), embedded shallowly in Lean.

Floating-point values (`f64`) are idealised as elements of a linear ordered
field (instantiated with `ℚ` in concrete computations); the calls into the
`faer` linear-algebra library (self-adjoint eigendecompositions), the
`f64::powf` library function and `f64::partial_cmp` are modelled as an
explicit oracle parameter, since the embedding cannot reproduce their
floating-point numerics.  Loops that push into vectors are modelled as folds
that append to lists.
-/

/-! ### Cartesian components (`src/orbital.rs`, `n_cart` and
`cartesian_components`)

The Rust source iterates `lx` from `l` down to `0`, and for each `lx`
iterates `ly` from `l - lx` down to `0`, pushing `(lx, ly, l - lx - ly)`.
The two countdown loops become structural recursions on the loop variable. -/

/-- Number of Cartesian components for angular momentum `l`:
`(l + 1) * (l + 2) / 2`. -/
def n_cart (l : Nat) : Nat :=
  (l + 1) * (l + 2) / 2

/-- Inner loop of `cartesian_components`: `ly` counts down from its start
value to `0`, pushing `(lx, ly, l - lx - ly)` at each step. -/
def cartLyLoop (l lx : Nat) : Nat → List (Nat × Nat × Nat)
  | 0 => [(lx, 0, l - lx)]
  | ly + 1 => (lx, ly + 1, l - lx - (ly + 1)) :: cartLyLoop l lx ly

/-- Outer loop of `cartesian_components`: `lx` counts down from `l` to `0`,
running the inner loop from `l - lx` for each value. -/
def cartLxLoop (l : Nat) : Nat → List (Nat × Nat × Nat)
  | 0 => cartLyLoop l 0 (l - 0)
  | lx + 1 => cartLyLoop l (lx + 1) (l - (lx + 1)) ++ cartLxLoop l lx

/-- All `(lx, ly, lz)` triples for angular momentum `l` in canonical order:
`lx` descending from `l` to `0`; for each `lx`, `ly` descending from
`l − lx` to `0`; `lz = l − lx − ly`.  Mirrors the double loop in
`cartesian_components` of `src/orbital.rs`. -/
def cartesian_components (l : Nat) : List (Nat × Nat × Nat) :=
  cartLxLoop l l

/-- The canonical order stated by the specification, written directly as
ranges: `lx` descending from `l` to `0`, then `ly` descending from `l - lx`
to `0`, with `lz` derived. -/
def cartesian_components_spec (l : Nat) : List (Nat × Nat × Nat) :=
  (List.range (l + 1)).reverse.flatMap fun lx =>
    (List.range (l - lx + 1)).reverse.map fun ly => (lx, ly, l - lx - ly)

theorem range_reverse_succ (n : Nat) :
    (List.range (n + 1)).reverse = n :: (List.range n).reverse := by
  rw [List.range_succ]
  simp

theorem cartLyLoop_eq_spec (l lx : Nat) :
    ∀ ly, cartLyLoop l lx ly =
      (List.range (ly + 1)).reverse.map fun j => (lx, j, l - lx - j) := by
  intro ly
  induction ly with
  | zero => rfl
  | succ k ih =>
    rw [range_reverse_succ, List.map_cons, ← ih]
    rfl

theorem cartLxLoop_eq_spec (l : Nat) :
    ∀ lx, cartLxLoop l lx =
      (List.range (lx + 1)).reverse.flatMap fun x =>
        (List.range (l - x + 1)).reverse.map fun ly => (x, ly, l - x - ly) := by
  intro lx
  induction lx with
  | zero =>
    have h1 : (List.range 1).reverse = ([0] : List Nat) := rfl
    rw [cartLxLoop, cartLyLoop_eq_spec, h1]
    simp
  | succ k ih =>
    rw [range_reverse_succ, List.flatMap_cons, ← ih, cartLxLoop, cartLyLoop_eq_spec]

theorem cartLyLoop_length (l lx : Nat) (ly : Nat) :
    (cartLyLoop l lx ly).length = ly + 1 := by
  induction ly with
  | zero => rfl
  | succ k ih => simp [cartLyLoop, ih]

theorem cartLxLoop_length (lx m : Nat) :
    2 * (cartLxLoop (lx + m) lx).length = (lx + 1) * (2 * m + lx + 2) := by
  induction lx generalizing m with
  | zero => simp [cartLxLoop, cartLyLoop_length]; omega
  | succ k ih =>
    have h1 : k + 1 + m - (k + 1) = m := by omega
    have h2 : k + 1 + m = k + (m + 1) := by omega
    rw [cartLxLoop, List.length_append, cartLyLoop_length, h1, h2]
    have h3 := ih (m + 1)
    zify at h3 ⊢
    linear_combination h3

theorem cartesian_components_length (l : Nat) :
    (cartesian_components l).length = n_cart l := by
  have h := cartLxLoop_length l 0
  simp only [Nat.add_zero, Nat.mul_zero, Nat.zero_add] at h
  unfold cartesian_components n_cart
  omega

theorem cartLyLoop_sum (l lx : Nat) (hx : lx ≤ l) :
    ∀ ly, ly ≤ l - lx →
      ∀ t ∈ cartLyLoop l lx ly, t.1 + t.2.1 + t.2.2 = l := by
  intro ly
  induction ly with
  | zero =>
    intro _ t ht
    simp [cartLyLoop] at ht
    subst ht
    simp
    omega
  | succ k ih =>
    intro hk t ht
    simp only [cartLyLoop, List.mem_cons] at ht
    rcases ht with h | h
    · subst h; simp; omega
    · exact ih (by omega) t h

theorem cartLxLoop_sum (l : Nat) :
    ∀ lx, lx ≤ l → ∀ t ∈ cartLxLoop l lx, t.1 + t.2.1 + t.2.2 = l := by
  intro lx
  induction lx with
  | zero =>
    intro _ t ht
    exact cartLyLoop_sum l 0 (Nat.zero_le l) _ le_rfl t ht
  | succ k ih =>
    intro hk t ht
    rw [cartLxLoop, List.mem_append] at ht
    rcases ht with h | h
    · exact cartLyLoop_sum l (k + 1) hk _ le_rfl t h
    · exact ih (by omega) t h

/-- C4: for every `l`, `cartesian_components l` has exactly
`(l+1)(l+2)/2` entries, each summing to `l`, and is exactly the canonical
descending-`lx`/descending-`ly` order; in particular `l = 0` yields
`[(0,0,0)]` and `l = 2` yields the six `d`-shell components in canonical
order. -/
theorem cartesian_components_canonical :
    (∀ l : Nat,
        (cartesian_components l).length = n_cart l ∧
        n_cart l = (l + 1) * (l + 2) / 2 ∧
        (∀ t ∈ cartesian_components l, t.1 + t.2.1 + t.2.2 = l) ∧
        cartesian_components l = cartesian_components_spec l) ∧
      cartesian_components 0 = [(0, 0, 0)] ∧
      cartesian_components 2 =
        [(2, 0, 0), (1, 1, 0), (1, 0, 1), (0, 2, 0), (0, 1, 1), (0, 0, 2)] := by
  refine ⟨fun l => ⟨cartesian_components_length l, rfl, ?_, ?_⟩, by decide, by decide⟩
  · exact cartLxLoop_sum l l le_rfl
  · exact cartLxLoop_eq_spec l l

/-! ### AO basis construction (`src/orbital.rs`, `init_basis_impl`)

`f64` values that are merely carried (coordinates, exponents, contraction
coefficients) are modelled by an arbitrary inhabited type `R`.  The
element-keyed `HashMap` is modelled as an association list with the same
`contains_key` / `insert` / index semantics, and the injected fallible
`load_fn` is an arbitrary function into `Except`.  To speak about how often
the load function is invoked, the embedding additionally returns the list of
element symbols it was called on, in call order. -/

/-- One contracted shell of a basis-set definition (`src/basis.rs`). -/
structure ElectronShell (R : Type) where
  angular_momentum : Nat
  exponents : List R
  coefficients : List R
deriving DecidableEq

/-- A per-element basis-set definition (`src/basis.rs`). -/
structure BasisSet (R : Type) where
  element : String
  atomic_number : Nat
  shells : List (ElectronShell R)
deriving DecidableEq

/-- Structure-of-arrays molecular geometry (`src/input.rs`). -/
structure CartesianGeometry (R : Type) where
  symbols : List String
  x : List R
  y : List R
  z : List R
deriving DecidableEq

/-- Structure-of-arrays contracted Cartesian AO basis (`src/orbital.rs`). -/
structure AoBasis (R : Type) where
  n_basis : Nat
  n_shells : Nat
  center_x : List R
  center_y : List R
  center_z : List R
  lx : List Nat
  ly : List Nat
  lz : List Nat
  shell_index : List Nat
  atom_index : List Nat
  prim_offset : List Nat
  n_primitives : List Nat
  exponents : List R
  coefficients : List R
deriving DecidableEq

/-- The mutable locals of `init_basis_impl`: the accumulating `AoBasis`
vectors together with the running primitive-offset counter `prim_offset`
(called `prim_off` here to distinguish it from the per-shell vector). -/
structure BuildLocals (R : Type) where
  n_basis : Nat
  n_shells : Nat
  center_x : List R
  center_y : List R
  center_z : List R
  lx : List Nat
  ly : List Nat
  lz : List Nat
  shell_index : List Nat
  atom_index : List Nat
  prim_offset : List Nat
  n_primitives : List Nat
  exponents : List R
  coefficients : List R
  prim_off : Nat
deriving DecidableEq

/-- Initial state: every vector empty, every counter zero. -/
def initLocals (R : Type) : BuildLocals R :=
  ⟨0, 0, [], [], [], [], [], [], [], [], [], [], [], [], 0⟩

/-- The body of the innermost loop: push one Cartesian component record. -/
def pushComponent {R : Type} (cx cy cz : R) (shell_idx atom_idx : Nat)
    (st : BuildLocals R) (c : Nat × Nat × Nat) : BuildLocals R :=
  { st with
    center_x := st.center_x ++ [cx]
    center_y := st.center_y ++ [cy]
    center_z := st.center_z ++ [cz]
    lx := st.lx ++ [c.1]
    ly := st.ly ++ [c.2.1]
    lz := st.lz ++ [c.2.2]
    shell_index := st.shell_index ++ [shell_idx]
    atom_index := st.atom_index ++ [atom_idx]
    n_basis := st.n_basis + 1 }

/-- The body of the per-shell loop of `init_basis_impl`: record the shell's
primitive block, then emit all of its Cartesian components. -/
def emitShell {R : Type} (cx cy cz : R) (atom_idx : Nat)
    (st : BuildLocals R) (shell : ElectronShell R) : BuildLocals R :=
  let shell_idx := st.n_shells
  let n_prim := shell.exponents.length
  let st1 : BuildLocals R :=
    { st with
      n_shells := st.n_shells + 1
      prim_offset := st.prim_offset ++ [st.prim_off]
      n_primitives := st.n_primitives ++ [n_prim]
      exponents := st.exponents ++ shell.exponents
      coefficients := st.coefficients ++ shell.coefficients
      prim_off := st.prim_off + n_prim }
  (cartesian_components shell.angular_momentum).foldl
    (pushComponent cx cy cz shell_idx atom_idx) st1

/-- Association-list model of the `HashMap<String, BasisSet>` lookup. -/
def findBasis {R : Type} (mp : List (String × BasisSet R)) (sym : String) :
    Option (BasisSet R) :=
  match mp with
  | [] => none
  | (k, v) :: rest => if k = sym then some v else findBasis rest sym

/-- The body of the per-atom loop of `init_basis_impl`.  The `none` branch is
unreachable after the load phase (the map holds every geometry symbol); the
Rust indexing would panic there, and the embedding emits nothing. -/
def emitAtom {R : Type} [Inhabited R] (geom : CartesianGeometry R)
    (mp : List (String × BasisSet R)) (st : BuildLocals R)
    (p : Nat × String) : BuildLocals R :=
  match findBasis mp p.2 with
  | none => st
  | some bs =>
    let cx := geom.x.getD p.1 default
    let cy := geom.y.getD p.1 default
    let cz := geom.z.getD p.1 default
    bs.shells.foldl (emitShell cx cy cz p.1) st

/-- Package the final locals into the returned `AoBasis`. -/
def mkAoBasis {R : Type} (st : BuildLocals R) : AoBasis R :=
  ⟨st.n_basis, st.n_shells, st.center_x, st.center_y, st.center_z,
    st.lx, st.ly, st.lz, st.shell_index, st.atom_index,
    st.prim_offset, st.n_primitives, st.exponents, st.coefficients⟩

/-- The first loop of `init_basis_impl`: walk the geometry symbols, and on
first encounter of a symbol call `load_fn` (logging the call) and insert the
result; `?` propagates a load failure immediately.  Returns the final map
(or the error) together with the log of `load_fn` invocations. -/
def loadPhase {R ε : Type} (load_fn : String → Except ε (BasisSet R)) :
    List String → List (String × BasisSet R) → List String →
      Except ε (List (String × BasisSet R)) × List String
  | [], mp, log => (.ok mp, log)
  | sym :: rest, mp, log =>
    if (findBasis mp sym).isSome then
      loadPhase load_fn rest mp log
    else
      match load_fn sym with
      | .error e => (.error e, log ++ [sym])
      | .ok bs => loadPhase load_fn rest (mp ++ [(sym, bs)]) (log ++ [sym])

/-- The emission loops of `init_basis_impl`, given the loaded map. -/
def buildFromMap {R : Type} [Inhabited R] (geom : CartesianGeometry R)
    (mp : List (String × BasisSet R)) : AoBasis R :=
  mkAoBasis (geom.symbols.enum.foldl (emitAtom geom mp) (initLocals R))

/-- `init_basis_impl` of `src/orbital.rs`: load one basis definition per
unique element symbol, then flatten atoms × shells × Cartesian components
into parallel arrays.  The second component is the instrumentation log of
`load_fn` invocations (in call order). -/
def init_basis_impl {R ε : Type} [Inhabited R] (geom : CartesianGeometry R)
    (load_fn : String → Except ε (BasisSet R)) :
    Except ε (AoBasis R) × List String :=
  match loadPhase load_fn geom.symbols [] [] with
  | (.error e, log) => (.error e, log)
  | (.ok mp, log) => (.ok (buildFromMap geom mp), log)

/-! ### Closed forms for the emission loops -/

/-- `cartesian_components` is never empty (angular momentum `l` has
`(l+1)(l+2)/2 ≥ 1` components). -/
theorem cartesian_components_ne_nil (l : Nat) : cartesian_components l ≠ [] := by
  intro hnil
  have h := cartesian_components_length l
  rw [hnil] at h
  have h2 : 2 ≤ (l + 1) * (l + 2) := by nlinarith
  have h3 : 0 < n_cart l := Nat.div_pos h2 (by norm_num)
  rw [← h] at h3
  simp at h3

theorem foldl_pushComponent {R : Type} (cx cy cz : R) (si ai : Nat)
    (comps : List (Nat × Nat × Nat)) (st : BuildLocals R) :
    comps.foldl (pushComponent cx cy cz si ai) st =
      { st with
        n_basis := st.n_basis + comps.length
        center_x := st.center_x ++ comps.map fun _ => cx
        center_y := st.center_y ++ comps.map fun _ => cy
        center_z := st.center_z ++ comps.map fun _ => cz
        lx := st.lx ++ comps.map fun c => c.1
        ly := st.ly ++ comps.map fun c => c.2.1
        lz := st.lz ++ comps.map fun c => c.2.2
        shell_index := st.shell_index ++ comps.map fun _ => si
        atom_index := st.atom_index ++ comps.map fun _ => ai } := by
  induction comps generalizing st with
  | nil => simp
  | cons c cs ih =>
    rw [List.foldl_cons, ih]
    cases st
    simp [pushComponent]
    omega

/-- Per-shell blocks of the global running shell index: the block for the
`k`-th listed shell (counting from `c`) repeats the value `c + k` once per
Cartesian component of that shell. -/
def shellBlocks {R : Type} (c : Nat) : List (ElectronShell R) → List Nat
  | [] => []
  | sh :: rest =>
    ((cartesian_components sh.angular_momentum).map fun _ => c) ++
      shellBlocks (c + 1) rest

/-- Primitive offsets of consecutive shells starting at offset `o`. -/
def offsetsFrom {R : Type} (o : Nat) : List (ElectronShell R) → List Nat
  | [] => []
  | sh :: rest => o :: offsetsFrom (o + sh.exponents.length) rest

theorem emitShell_eq {R : Type} (cx cy cz : R) (ai : Nat)
    (st : BuildLocals R) (sh : ElectronShell R) :
    emitShell cx cy cz ai st sh =
      { st with
        n_basis := st.n_basis + (cartesian_components sh.angular_momentum).length
        n_shells := st.n_shells + 1
        center_x := st.center_x ++
          ((cartesian_components sh.angular_momentum).map fun _ => cx)
        center_y := st.center_y ++
          ((cartesian_components sh.angular_momentum).map fun _ => cy)
        center_z := st.center_z ++
          ((cartesian_components sh.angular_momentum).map fun _ => cz)
        lx := st.lx ++ ((cartesian_components sh.angular_momentum).map fun c => c.1)
        ly := st.ly ++ ((cartesian_components sh.angular_momentum).map fun c => c.2.1)
        lz := st.lz ++ ((cartesian_components sh.angular_momentum).map fun c => c.2.2)
        shell_index := st.shell_index ++
          ((cartesian_components sh.angular_momentum).map fun _ => st.n_shells)
        atom_index := st.atom_index ++
          ((cartesian_components sh.angular_momentum).map fun _ => ai)
        prim_offset := st.prim_offset ++ [st.prim_off]
        n_primitives := st.n_primitives ++ [sh.exponents.length]
        exponents := st.exponents ++ sh.exponents
        coefficients := st.coefficients ++ sh.coefficients
        prim_off := st.prim_off + sh.exponents.length } := by
  rw [emitShell, foldl_pushComponent]

theorem foldl_emitShell {R : Type} (cx cy cz : R) (ai : Nat)
    (shells : List (ElectronShell R)) (st : BuildLocals R) :
    shells.foldl (emitShell cx cy cz ai) st =
      { st with
        n_basis := st.n_basis +
          (shells.map fun sh => (cartesian_components sh.angular_momentum).length).sum
        n_shells := st.n_shells + shells.length
        center_x := st.center_x ++
          (shells.flatMap fun sh =>
            (cartesian_components sh.angular_momentum).map fun _ => cx)
        center_y := st.center_y ++
          (shells.flatMap fun sh =>
            (cartesian_components sh.angular_momentum).map fun _ => cy)
        center_z := st.center_z ++
          (shells.flatMap fun sh =>
            (cartesian_components sh.angular_momentum).map fun _ => cz)
        lx := st.lx ++ (shells.flatMap fun sh =>
          (cartesian_components sh.angular_momentum).map fun c => c.1)
        ly := st.ly ++ (shells.flatMap fun sh =>
          (cartesian_components sh.angular_momentum).map fun c => c.2.1)
        lz := st.lz ++ (shells.flatMap fun sh =>
          (cartesian_components sh.angular_momentum).map fun c => c.2.2)
        shell_index := st.shell_index ++ shellBlocks st.n_shells shells
        atom_index := st.atom_index ++
          (shells.flatMap fun sh =>
            (cartesian_components sh.angular_momentum).map fun _ => ai)
        prim_offset := st.prim_offset ++ offsetsFrom st.prim_off shells
        n_primitives := st.n_primitives ++ (shells.map fun sh => sh.exponents.length)
        exponents := st.exponents ++ (shells.flatMap fun sh => sh.exponents)
        coefficients := st.coefficients ++ (shells.flatMap fun sh => sh.coefficients)
        prim_off := st.prim_off + (shells.map fun sh => sh.exponents.length).sum } := by
  induction shells generalizing st with
  | nil => simp [shellBlocks, offsetsFrom]
  | cons sh rest ih =>
    rw [List.foldl_cons, emitShell_eq, ih]
    cases st
    simp [shellBlocks, offsetsFrom]
    omega

/-- The shells an atom with element symbol `sym` contributes, given the
loaded map (`[]` when the symbol is absent — unreachable after loading). -/
def atomShells {R : Type} (mp : List (String × BasisSet R)) (sym : String) :
    List (ElectronShell R) :=
  match findBasis mp sym with
  | none => []
  | some bs => bs.shells

/-- All shells contributed by a symbol list, in emission order. -/
def allShells {R : Type} (mp : List (String × BasisSet R))
    (syms : List String) : List (ElectronShell R) :=
  syms.flatMap (atomShells mp)

/-- The `atom_index` entries contributed by the atoms of `syms`, the first
atom having index `i`. -/
def atomBlocks {R : Type} (mp : List (String × BasisSet R)) :
    Nat → List String → List Nat
  | _, [] => []
  | i, sym :: rest =>
    ((atomShells mp sym).flatMap fun sh =>
      (cartesian_components sh.angular_momentum).map fun _ => i) ++
      atomBlocks mp (i + 1) rest

theorem shellBlocks_append {R : Type} (c : Nat)
    (l1 l2 : List (ElectronShell R)) :
    shellBlocks c (l1 ++ l2) = shellBlocks c l1 ++ shellBlocks (c + l1.length) l2 := by
  induction l1 generalizing c with
  | nil => simp [shellBlocks]
  | cons sh rest ih =>
    have hc : c + 1 + rest.length = c + (rest.length + 1) := by omega
    simp only [List.cons_append, shellBlocks, ih, List.length_cons,
      List.append_assoc, List.append_eq, hc]

theorem offsetsFrom_append {R : Type} (o : Nat)
    (l1 l2 : List (ElectronShell R)) :
    offsetsFrom o (l1 ++ l2) =
      offsetsFrom o l1 ++
        offsetsFrom (o + (l1.map fun sh => sh.exponents.length).sum) l2 := by
  induction l1 generalizing o with
  | nil => simp [offsetsFrom]
  | cons sh rest ih =>
    simp only [List.cons_append, offsetsFrom, ih, List.map_cons, List.sum_cons,
      List.append_eq, Nat.add_assoc]

theorem foldl_emitAtom {R : Type} [Inhabited R] (geom : CartesianGeometry R)
    (mp : List (String × BasisSet R)) (syms : List String) :
    ∀ (i : Nat) (st : BuildLocals R),
      ((syms.enumFrom i).foldl (emitAtom geom mp) st).n_shells =
          st.n_shells + (allShells mp syms).length ∧
        ((syms.enumFrom i).foldl (emitAtom geom mp) st).shell_index =
          st.shell_index ++ shellBlocks st.n_shells (allShells mp syms) ∧
        ((syms.enumFrom i).foldl (emitAtom geom mp) st).atom_index =
          st.atom_index ++ atomBlocks mp i syms ∧
        ((syms.enumFrom i).foldl (emitAtom geom mp) st).prim_offset =
          st.prim_offset ++ offsetsFrom st.prim_off (allShells mp syms) ∧
        ((syms.enumFrom i).foldl (emitAtom geom mp) st).n_primitives =
          st.n_primitives ++ ((allShells mp syms).map fun sh => sh.exponents.length) ∧
        ((syms.enumFrom i).foldl (emitAtom geom mp) st).prim_off =
          st.prim_off + ((allShells mp syms).map fun sh => sh.exponents.length).sum := by
  induction syms with
  | nil => simp [allShells, shellBlocks, offsetsFrom, atomBlocks]
  | cons sym rest ih =>
    intro i st
    rw [List.enumFrom_cons, List.foldl_cons]
    have hall : allShells mp (sym :: rest) = atomShells mp sym ++ allShells mp rest := by
      simp [allShells]
    cases hf : findBasis mp sym with
    | none =>
      have hst : emitAtom geom mp st (i, sym) = st := by
        simp [emitAtom, hf]
      have hsh : atomShells mp sym = ([] : List (ElectronShell R)) := by
        simp [atomShells, hf]
      rw [hst, hall, hsh]
      obtain ⟨h1, h2, h3, h4, h5, h6⟩ := ih (i + 1) st
      refine ⟨by simpa using h1, by simpa using h2, ?_, by simpa using h4,
        by simpa using h5, by simpa using h6⟩
      rw [h3, atomBlocks, hsh]
      simp
    | some bs =>
      have hst : emitAtom geom mp st (i, sym) =
          bs.shells.foldl
            (emitShell (geom.x.getD i default) (geom.y.getD i default)
              (geom.z.getD i default) i) st := by
        simp [emitAtom, hf]
      have hsh : atomShells mp sym = bs.shells := by
        simp [atomShells, hf]
      rw [hst, hall, hsh]
      obtain ⟨h1, h2, h3, h4, h5, h6⟩ := ih (i + 1)
        (bs.shells.foldl
          (emitShell (geom.x.getD i default) (geom.y.getD i default)
            (geom.z.getD i default) i) st)
      refine ⟨?_, ?_, ?_, ?_, ?_, ?_⟩
      · rw [h1, foldl_emitShell]
        simp
        omega
      · rw [h2, foldl_emitShell]
        simp only
        rw [shellBlocks_append, List.append_assoc]
      · rw [h3, foldl_emitShell, atomBlocks, hsh]
        simp only
        rw [List.append_assoc]
      · rw [h4, foldl_emitShell]
        simp only
        rw [offsetsFrom_append, List.append_assoc]
      · rw [h5, foldl_emitShell]
        simp only
        rw [List.map_append, List.append_assoc]
      · rw [h6, foldl_emitShell]
        simp only
        rw [List.map_append, List.sum_append]
        omega

theorem pairwise_le_of_const (c : Nat) :
    ∀ l : List Nat, (∀ x ∈ l, x = c) → l.Pairwise (· ≤ ·) := by
  intro l
  induction l with
  | nil => intro _; exact List.Pairwise.nil
  | cons a as ih =>
    intro h
    refine List.Pairwise.cons ?_ (ih fun x hx => h x (List.mem_cons_of_mem a hx))
    intro y hy
    rw [h a (List.mem_cons_self a as), h y (List.mem_cons_of_mem a hy)]

theorem mem_shellBlocks {R : Type} :
    ∀ (l : List (ElectronShell R)) (c : Nat), ∀ x ∈ shellBlocks c l,
      c ≤ x ∧ x < c + l.length := by
  intro l
  induction l with
  | nil => intro c x hx; simp [shellBlocks] at hx
  | cons sh rest ih =>
    intro c x hx
    rw [shellBlocks, List.mem_append] at hx
    rcases hx with h | h
    · obtain ⟨_, _, rfl⟩ := List.mem_map.mp h
      simp
    · have := ih (c + 1) x h
      simp only [List.length_cons]
      omega

theorem shellBlocks_sorted {R : Type} :
    ∀ (l : List (ElectronShell R)) (c : Nat),
      (shellBlocks c l).Pairwise (· ≤ ·) := by
  intro l
  induction l with
  | nil => intro c; exact List.Pairwise.nil
  | cons sh rest ih =>
    intro c
    rw [shellBlocks, List.pairwise_append]
    refine ⟨pairwise_le_of_const c _ ?_, ih (c + 1), ?_⟩
    · intro x hx
      obtain ⟨_, _, rfl⟩ := List.mem_map.mp hx
      rfl
    · intro x hx y hy
      obtain ⟨_, _, rfl⟩ := List.mem_map.mp hx
      have := (mem_shellBlocks rest (c + 1) y hy).1
      omega

theorem shellBlocks_surj {R : Type} :
    ∀ (l : List (ElectronShell R)) (c : Nat), ∀ s, c ≤ s → s < c + l.length →
      s ∈ shellBlocks c l := by
  intro l
  induction l with
  | nil => intro c s h1 h2; simp at h2; omega
  | cons sh rest ih =>
    intro c s h1 h2
    rw [shellBlocks, List.mem_append]
    rcases Nat.eq_or_lt_of_le h1 with rfl | hlt
    · left
      obtain ⟨a, ha⟩ := List.exists_mem_of_ne_nil _
        (cartesian_components_ne_nil sh.angular_momentum)
      exact List.mem_map.mpr ⟨a, ha, rfl⟩
    · right
      refine ih (c + 1) s hlt ?_
      simp only [List.length_cons] at h2
      omega

theorem mem_atomBlocks {R : Type} (mp : List (String × BasisSet R)) :
    ∀ (syms : List String) (i : Nat), ∀ x ∈ atomBlocks mp i syms, i ≤ x := by
  intro syms
  induction syms with
  | nil => intro i x hx; simp [atomBlocks] at hx
  | cons sym rest ih =>
    intro i x hx
    rw [atomBlocks, List.mem_append] at hx
    rcases hx with h | h
    · obtain ⟨_, _, hm⟩ := List.mem_flatMap.mp h
      obtain ⟨_, _, rfl⟩ := List.mem_map.mp hm
      exact le_rfl
    · have := ih (i + 1) x h
      omega

theorem atomBlocks_sorted {R : Type} (mp : List (String × BasisSet R)) :
    ∀ (syms : List String) (i : Nat), (atomBlocks mp i syms).Pairwise (· ≤ ·) := by
  intro syms
  induction syms with
  | nil => intro i; exact List.Pairwise.nil
  | cons sym rest ih =>
    intro i
    rw [atomBlocks, List.pairwise_append]
    refine ⟨pairwise_le_of_const i _ ?_, ih (i + 1), ?_⟩
    · intro x hx
      obtain ⟨_, _, hm⟩ := List.mem_flatMap.mp hx
      obtain ⟨_, _, rfl⟩ := List.mem_map.mp hm
      rfl
    · intro x hx y hy
      obtain ⟨_, _, hm⟩ := List.mem_flatMap.mp hx
      obtain ⟨_, _, rfl⟩ := List.mem_map.mp hm
      have := mem_atomBlocks mp rest (i + 1) y hy
      omega

theorem offsetsFrom_length {R : Type} :
    ∀ (l : List (ElectronShell R)) (o : Nat), (offsetsFrom o l).length = l.length := by
  intro l
  induction l with
  | nil => intro o; rfl
  | cons sh rest ih => intro o; simp [offsetsFrom, ih]

theorem offsetsFrom_getD_zero {R : Type} (l : List (ElectronShell R)) (o : Nat)
    (h : l ≠ []) : (offsetsFrom o l).getD 0 0 = o := by
  cases l with
  | nil => exact absurd rfl h
  | cons sh rest => rfl

theorem offsetsFrom_chain {R : Type} :
    ∀ (l : List (ElectronShell R)) (o i : Nat), i + 1 < l.length →
      (offsetsFrom o l).getD i 0 +
          (l.map fun sh => sh.exponents.length).getD i 0 =
        (offsetsFrom o l).getD (i + 1) 0 := by
  intro l
  induction l with
  | nil => intro o i h; simp at h
  | cons sh rest ih =>
    intro o i h
    cases i with
    | zero =>
      cases rest with
      | nil => simp at h
      | cons sh2 rest2 => simp [offsetsFrom]
    | succ j =>
      simp only [offsetsFrom, List.map_cons, List.getD_cons_succ]
      exact ih (o + sh.exponents.length) j (by simpa using h)

theorem buildFromMap_spec {R : Type} [Inhabited R] (geom : CartesianGeometry R)
    (mp : List (String × BasisSet R)) :
    (buildFromMap geom mp).n_shells = (allShells mp geom.symbols).length ∧
      (buildFromMap geom mp).shell_index =
        shellBlocks 0 (allShells mp geom.symbols) ∧
      (buildFromMap geom mp).atom_index = atomBlocks mp 0 geom.symbols ∧
      (buildFromMap geom mp).prim_offset =
        offsetsFrom 0 (allShells mp geom.symbols) ∧
      (buildFromMap geom mp).n_primitives =
        (allShells mp geom.symbols).map fun sh => sh.exponents.length := by
  obtain ⟨h1, h2, h3, h4, h5, h6⟩ := foldl_emitAtom geom mp geom.symbols 0 (initLocals R)
  simp only [initLocals] at h1 h2 h3 h4 h5
  refine ⟨?_, ?_, ?_, ?_, ?_⟩ <;>
    simp [buildFromMap, mkAoBasis, List.enum_eq_enumFrom, initLocals, h1, h2, h3, h4, h5]

theorem init_basis_ok_eq {R ε : Type} [Inhabited R] (geom : CartesianGeometry R)
    (load_fn : String → Except ε (BasisSet R)) (b : AoBasis R) (log : List String)
    (h : init_basis_impl geom load_fn = (.ok b, log)) :
    ∃ mp, b = buildFromMap geom mp := by
  unfold init_basis_impl at h
  rcases hl : loadPhase load_fn geom.symbols [] [] with ⟨r, lg⟩
  rw [hl] at h
  cases r with
  | error e => simp at h
  | ok mp =>
    simp only [Prod.mk.injEq, Except.ok.injEq] at h
    exact ⟨mp, h.1.symm⟩

/-! ### Claims C6, C7, C10: ordering invariants of the built basis -/

/-- C6: in every successfully returned `AoBasis`, basis functions are
strictly atom-major (the `atom_index` array is non-decreasing, so for atom
indices `i < j` every position owned by `i` precedes every position owned by
`j`), and shells appear in emission order (the global `shell_index` array is
non-decreasing, shells being numbered in the order of each element's basis
definition). -/
theorem init_basis_atom_major {R ε : Type} [Inhabited R]
    (geom : CartesianGeometry R) (load_fn : String → Except ε (BasisSet R))
    (b : AoBasis R) (log : List String)
    (h : init_basis_impl geom load_fn = (.ok b, log)) :
    (∀ p q : Fin b.atom_index.length, p < q →
        b.atom_index.get p ≤ b.atom_index.get q) ∧
      b.shell_index.Pairwise (· ≤ ·) := by
  obtain ⟨mp, rfl⟩ := init_basis_ok_eq geom load_fn b log h
  obtain ⟨h1, h2, h3, h4, h5⟩ := buildFromMap_spec geom mp
  constructor
  · exact List.pairwise_iff_get.mp (by rw [h3]; exact atomBlocks_sorted mp geom.symbols 0)
  · rw [h2]
    exact shellBlocks_sorted _ 0

/-- C7: in every successfully returned `AoBasis`, the per-shell primitive
blocks are contiguous: `prim_offset` and `n_primitives` have length
`n_shells`, `prim_offset[0] = 0` when shells exist, and
`prim_offset[i] + n_primitives[i] = prim_offset[i+1]` for consecutive
shells. -/
theorem init_basis_prim_offsets_contiguous {R ε : Type} [Inhabited R]
    (geom : CartesianGeometry R) (load_fn : String → Except ε (BasisSet R))
    (b : AoBasis R) (log : List String)
    (h : init_basis_impl geom load_fn = (.ok b, log)) :
    b.prim_offset.length = b.n_shells ∧
      b.n_primitives.length = b.n_shells ∧
      (0 < b.n_shells → b.prim_offset.getD 0 0 = 0) ∧
      ∀ i, i + 1 < b.n_shells →
        b.prim_offset.getD i 0 + b.n_primitives.getD i 0 =
          b.prim_offset.getD (i + 1) 0 := by
  obtain ⟨mp, rfl⟩ := init_basis_ok_eq geom load_fn b log h
  obtain ⟨h1, h2, h3, h4, h5⟩ := buildFromMap_spec geom mp
  refine ⟨?_, ?_, ?_, ?_⟩
  · rw [h4, h1, offsetsFrom_length]
  · rw [h5, h1, List.length_map]
  · intro hpos
    rw [h4]
    apply offsetsFrom_getD_zero
    rw [h1] at hpos
    intro hnil
    rw [hnil] at hpos
    simp at hpos
  · intro i hi
    rw [h4, h5]
    rw [h1] at hi
    exact offsetsFrom_chain _ 0 i hi

/-- C10 (implicit): in every successfully returned `AoBasis`, `shell_index`
is the global running shell index: it is exactly the concatenation of
constant blocks `0, 1, 2, …` (one block per emitted shell, one entry per
Cartesian component); consequently it is non-decreasing, bounded by
`n_shells`, and every value in `0 … n_shells − 1` occurs at least once. -/
theorem init_basis_shell_index_running {R ε : Type} [Inhabited R]
    (geom : CartesianGeometry R) (load_fn : String → Except ε (BasisSet R))
    (b : AoBasis R) (log : List String)
    (h : init_basis_impl geom load_fn = (.ok b, log)) :
    (∃ shells : List (ElectronShell R),
        b.shell_index = shellBlocks 0 shells ∧ b.n_shells = shells.length) ∧
      b.shell_index.Pairwise (· ≤ ·) ∧
      (∀ x ∈ b.shell_index, x < b.n_shells) ∧
      (∀ s, s < b.n_shells → s ∈ b.shell_index) := by
  obtain ⟨mp, rfl⟩ := init_basis_ok_eq geom load_fn b log h
  obtain ⟨h1, h2, h3, h4, h5⟩ := buildFromMap_spec geom mp
  refine ⟨⟨allShells mp geom.symbols, h2, h1⟩, ?_, ?_, ?_⟩
  · rw [h2]
    exact shellBlocks_sorted _ 0
  · intro x hx
    rw [h2] at hx
    have := (mem_shellBlocks _ 0 x hx).2
    rw [h1]
    omega
  · intro s hs
    rw [h2]
    rw [h1] at hs
    exact shellBlocks_surj _ 0 s (Nat.zero_le s) (by omega)

/-- Concrete geometry for witnesses: a two-element molecule (O then H). -/
def witGeom : CartesianGeometry ℚ :=
  ⟨["O", "H"], [0, 1], [0, 0], [0, 0]⟩

/-- Concrete always-succeeding load function for witnesses: O has an
`s` shell (2 primitives) and a `p` shell (1 primitive); H has one `s` shell. -/
def witLoad : String → Except Unit (BasisSet ℚ) := fun s =>
  if s = "O" then .ok ⟨"O", 8, [⟨0, [1, 2], [1, 1]⟩, ⟨1, [3], [1]⟩]⟩
  else .ok ⟨"H", 1, [⟨0, [5], [1]⟩]⟩

/-- The basis built from `witGeom` and `witLoad`. -/
def witB : AoBasis ℚ :=
  ⟨5, 3, [0, 0, 0, 0, 1], [0, 0, 0, 0, 0], [0, 0, 0, 0, 0],
    [0, 1, 0, 0, 0], [0, 0, 1, 0, 0], [0, 0, 0, 1, 0],
    [0, 1, 1, 1, 2], [0, 0, 0, 0, 1],
    [0, 2, 3], [2, 1, 1], [1, 2, 3, 5], [1, 1, 1, 1]⟩

theorem witB_eq : init_basis_impl witGeom witLoad = (.ok witB, ["O", "H"]) := by
  rfl

theorem init_basis_atom_major_witness :
    (∀ p q : Fin witB.atom_index.length, p < q →
        witB.atom_index.get p ≤ witB.atom_index.get q) ∧
      witB.shell_index.Pairwise (· ≤ ·) :=
  init_basis_atom_major witGeom witLoad witB ["O", "H"] witB_eq

theorem init_basis_prim_offsets_contiguous_witness :
    witB.prim_offset.length = witB.n_shells ∧
      witB.n_primitives.length = witB.n_shells ∧
      (0 < witB.n_shells → witB.prim_offset.getD 0 0 = 0) ∧
      ∀ i, i + 1 < witB.n_shells →
        witB.prim_offset.getD i 0 + witB.n_primitives.getD i 0 =
          witB.prim_offset.getD (i + 1) 0 :=
  init_basis_prim_offsets_contiguous witGeom witLoad witB ["O", "H"] witB_eq

theorem init_basis_shell_index_running_witness :
    (∃ shells : List (ElectronShell ℚ),
        witB.shell_index = shellBlocks 0 shells ∧ witB.n_shells = shells.length) ∧
      witB.shell_index.Pairwise (· ≤ ·) ∧
      (∀ x ∈ witB.shell_index, x < witB.n_shells) ∧
      (∀ s, s < witB.n_shells → s ∈ witB.shell_index) :=
  init_basis_shell_index_running witGeom witLoad witB ["O", "H"] witB_eq

/-! ### Claim C5: one load per unique element -/

theorem findBasis_append_singleton {R : Type} (sym s : String)
    (bs : BasisSet R) :
    ∀ mp : List (String × BasisSet R),
      (findBasis (mp ++ [(sym, bs)]) s).isSome ↔
        (findBasis mp s).isSome ∨ sym = s := by
  intro mp
  induction mp with
  | nil =>
    by_cases h : sym = s <;> simp [findBasis, h]
  | cons p rest ih =>
    by_cases h : p.1 = s <;> simp [findBasis, h, ih]

theorem loadPhase_log {R ε : Type} (load_fn : String → Except ε (BasisSet R)) :
    ∀ (syms : List String) (mp : List (String × BasisSet R)) (log : List String),
      (∀ s, (findBasis mp s).isSome ↔ s ∈ log) → log.Nodup →
      ∀ (mp' : List (String × BasisSet R)) (log' : List String),
        loadPhase load_fn syms mp log = (.ok mp', log') →
        log'.Nodup ∧ (∀ s, s ∈ log' ↔ s ∈ log ∨ s ∈ syms) := by
  intro syms
  induction syms with
  | nil =>
    intro mp log hinv hnd mp' log' h
    rw [loadPhase] at h
    simp only [Prod.mk.injEq, Except.ok.injEq] at h
    obtain ⟨-, rfl⟩ := h
    exact ⟨hnd, fun s => by simp⟩
  | cons sym rest ih =>
    intro mp log hinv hnd mp' log' h
    rw [loadPhase] at h
    by_cases hc : (findBasis mp sym).isSome
    · rw [if_pos hc] at h
      have hmem : sym ∈ log := (hinv sym).mp hc
      obtain ⟨hnd', hmem'⟩ := ih mp log hinv hnd mp' log' h
      refine ⟨hnd', fun s => ?_⟩
      rw [hmem' s, List.mem_cons]
      constructor
      · rintro (hs | hs)
        · exact Or.inl hs
        · exact Or.inr (Or.inr hs)
      · rintro (hs | hs | hs)
        · exact Or.inl hs
        · exact Or.inl (hs ▸ hmem)
        · exact Or.inr hs
    · rw [if_neg hc] at h
      cases hl : load_fn sym with
      | error e =>
        rw [hl] at h
        simp at h
      | ok bs =>
        rw [hl] at h
        have hninlog : sym ∉ log := fun hmem => hc ((hinv sym).mpr hmem)
        have hinv' : ∀ s, (findBasis (mp ++ [(sym, bs)]) s).isSome ↔
            s ∈ log ++ [sym] := by
          intro s
          rw [findBasis_append_singleton, hinv, List.mem_append,
            List.mem_singleton]
          constructor
          · rintro (hs | hs)
            · exact Or.inl hs
            · exact Or.inr hs.symm
          · rintro (hs | hs)
            · exact Or.inl hs
            · exact Or.inr hs.symm
        have hnd' : (log ++ [sym]).Nodup := by
          rw [List.nodup_append]
          exact ⟨hnd, List.nodup_singleton sym,
            fun a ha hb => by simp at hb; exact hninlog (hb ▸ ha)⟩
        obtain ⟨hnd'', hmem''⟩ := ih _ _ hinv' hnd' mp' log' h
        refine ⟨hnd'', fun s => ?_⟩
        rw [hmem'' s, List.mem_append, List.mem_singleton, List.mem_cons]
        tauto

/-- C5 (amended): whenever `init_basis_impl` returns successfully, the load
function has been invoked exactly once per distinct element symbol of the
geometry: the invocation log has no duplicates, contains exactly the symbols
occurring in the geometry, and its length is the number of unique symbols;
an empty geometry yields an empty log.  (The unrestricted claim, for every
load function, fails: a failing load aborts the loop early.) -/
theorem init_basis_load_once_per_unique {R ε : Type} [Inhabited R]
    (geom : CartesianGeometry R) (load_fn : String → Except ε (BasisSet R))
    (b : AoBasis R) (log : List String)
    (h : init_basis_impl geom load_fn = (.ok b, log)) :
    log.Nodup ∧ (∀ s, s ∈ log ↔ s ∈ geom.symbols) ∧
      log.length = geom.symbols.dedup.length ∧
      (geom.symbols = [] → log = []) := by
  unfold init_basis_impl at h
  rcases hl : loadPhase load_fn geom.symbols [] [] with ⟨r, lg⟩
  rw [hl] at h
  cases r with
  | error e => simp at h
  | ok mp =>
    simp only [Prod.mk.injEq, Except.ok.injEq] at h
    obtain ⟨-, rfl⟩ := h
    obtain ⟨hnd, hmem⟩ :=
      loadPhase_log load_fn geom.symbols [] []
        (fun s => by simp [findBasis]) List.nodup_nil mp lg hl
    have hmem' : ∀ s, s ∈ lg ↔ s ∈ geom.symbols := by
      intro s
      rw [hmem s]
      simp
    refine ⟨hnd, hmem', ?_, ?_⟩
    · have hperm : lg.Perm geom.symbols.dedup := by
        rw [List.perm_ext_iff_of_nodup hnd (List.nodup_dedup _)]
        intro a
        rw [hmem' a, List.mem_dedup]
      exact hperm.length_eq
    · intro hempty
      rw [List.eq_nil_iff_forall_not_mem]
      intro a ha
      have := (hmem' a).mp ha
      rw [hempty] at this
      simp at this

/-- Concrete two-unique-element geometry for the C5 counterexample. -/
def failGeom : CartesianGeometry ℚ :=
  ⟨["H", "C"], [0, 1], [0, 0], [0, 0]⟩

/-- A load function that always fails. -/
def failLoad : String → Except Unit (BasisSet ℚ) := fun _ => .error ()

/-- C5 counterexample: with a failing load function, a geometry with two
unique element symbols causes exactly one invocation, not two — the claim's
quantification over every load function fails. -/
theorem init_basis_load_count_counterexample :
    (init_basis_impl failGeom failLoad).2 = ["H"] ∧
      (init_basis_impl failGeom failLoad).2.length = 1 ∧
      failGeom.symbols.dedup.length = 2 := by
  refine ⟨rfl, rfl, ?_⟩
  decide

theorem init_basis_load_once_per_unique_witness :
    (["O", "H"] : List String).Nodup ∧
      (∀ s, s ∈ (["O", "H"] : List String) ↔ s ∈ witGeom.symbols) ∧
      (["O", "H"] : List String).length = witGeom.symbols.dedup.length ∧
      (witGeom.symbols = [] → (["O", "H"] : List String) = []) :=
  init_basis_load_once_per_unique witGeom witLoad witB ["O", "H"] witB_eq

/-! ### Initial guess solver (`src/guess.rs`, `guess_hcore`)

Dynamically-shaped dense matrices are a shape pair together with an entry
function; `f64` entries are idealised as elements of a linear ordered field
`α`.  The `faer` calls (`selfadjoint_eigendecomposition`), `f64::powf` (used
only as `powf(-0.5)`) and `f64::partial_cmp` are modelled by an oracle
record.  To express the spec's ordering-of-operations statements, the
embedding also returns the list of numerical operations performed, in
source order. -/

/-- Dynamically-shaped dense matrix (`faer::Mat<f64>`). -/
structure DMat (α : Type) where
  nrows : Nat
  ncols : Nat
  entry : Nat → Nat → α

/-- Error type returned by `guess_hcore`. -/
inductive GuessError
  | DimensionMismatch (s_shape t_shape v_shape : Nat × Nat)
  | TooManyElectrons (n_alpha n_beta n_basis : Nat)
  | SingularOverlap
deriving DecidableEq

/-- The numerical operations `guess_hcore` performs, for the trace. -/
inductive GuessEvent
  | buildH
  | evdS
  | buildX
  | transformH
  | evdH
  | sortEnergies
  | buildUsorted
  | buildC
deriving DecidableEq

/-- Result of `selfadjoint_eigendecomposition`: the eigenvalue sequence
(`evd.s().column_vector().read i`) and the eigenvector matrix (`evd.u()`). -/
structure Evd (α : Type) where
  eigenvalues : Nat → α
  u : DMat α

/-- Oracle for the numerical library calls of `guess_hcore`. -/
structure NumOracle (α : Type) where
  evd : DMat α → Evd α
  invSqrt : α → α
  pcmp : α → α → Option Ordering

def DMat.zeros {α : Type} [Zero α] (r c : Nat) : DMat α :=
  ⟨r, c, fun _ _ => 0⟩

/-- Elementwise sum (`t + v` on `faer` matrices). -/
def DMat.add {α : Type} [Add α] (a b : DMat α) : DMat α :=
  ⟨a.nrows, a.ncols, fun i j => a.entry i j + b.entry i j⟩

def DMat.transpose {α : Type} (a : DMat α) : DMat α :=
  ⟨a.ncols, a.nrows, fun i j => a.entry j i⟩

/-- Matrix product (`&a * &b` on `faer` matrices). -/
def DMat.mul {α : Type} [Semiring α] (a b : DMat α) : DMat α :=
  ⟨a.nrows, b.ncols, fun i j =>
    Finset.sum (Finset.range a.ncols) fun k => a.entry i k * b.entry k j⟩

/-- The orthogonaliser `X`: column `j` of `U_s` scaled by `λ_j.powf(-0.5)`. -/
def buildX {α : Type} [Mul α] (ora : NumOracle α) (n : Nat) (evd_s : Evd α) :
    DMat α :=
  ⟨n, n, fun i j => evd_s.u.entry i j * ora.invSqrt (evd_s.eigenvalues j)⟩

/-- `U'` with columns reordered by the sorted index permutation. -/
def reorderCols {α : Type} (n : Nat) (u : DMat α) (order : List Nat) : DMat α :=
  ⟨n, n, fun i j => u.entry i (order.getD j 0)⟩

/-- The sorted index permutation: `(0..n).collect()` sorted stably by the
comparator `partial_cmp(..).unwrap_or(Equal)` (Rust `sort_by`, a stable
sort, modelled by the stable `List.mergeSort`).  For a total comparator
the stable sorted permutation is unique, so this model agrees with
`sort_by` exactly; for a non-total comparator (energies containing NaN)
`sort_by` leaves the order unspecified and this model fixes one
behaviour, which need not coincide with any particular `std`
implementation. -/
def sortOrder {α : Type} (pcmp : α → α → Option Ordering) (n : Nat)
    (energies : Nat → α) : List Nat :=
  (List.range n).mergeSort fun a b =>
    match (pcmp (energies a) (energies b)).getD .eq with
    | .gt => false
    | _ => true

/-- The transformed core Hamiltonian `H' = Xᵀ (T + V) X` as `guess_hcore`
computes it (`n = s.nrows`). -/
def hprimeOf {α : Type} [Semiring α] (ora : NumOracle α) (s t v : DMat α) :
    DMat α :=
  DMat.mul
    (DMat.mul (DMat.transpose (buildX ora s.nrows (ora.evd s))) (DMat.add t v))
    (buildX ora s.nrows (ora.evd s))

/-- `guess_hcore` of `src/guess.rs`: validation (shape, electron count,
degenerate `n = 0`), then canonical orthogonalisation.  The second component
is the trace of numerical operations in source order; note that the source
forms `H = T + V` before eigendecomposing `S` and checking its
eigenvalues. -/
def guess_hcore {α : Type} [LinearOrderedField α] (ora : NumOracle α)
    (s t v : DMat α) (n_alpha n_beta : Nat) :
    Except GuessError (DMat α) × List GuessEvent :=
  let s_shape := (s.nrows, s.ncols)
  let t_shape := (t.nrows, t.ncols)
  let v_shape := (v.nrows, v.ncols)
  let n := s.nrows
  if s.nrows ≠ s.ncols ∨ t.nrows ≠ t.ncols ∨ v.nrows ≠ v.ncols ∨
      t.nrows ≠ n ∨ v.nrows ≠ n then
    (.error (.DimensionMismatch s_shape t_shape v_shape), [])
  else if n_alpha > n ∨ n_beta > n then
    (.error (.TooManyElectrons n_alpha n_beta n), [])
  else if n = 0 then
    (.ok (DMat.zeros 0 0), [])
  else
    let evd_s := ora.evd s
    if (List.range n).any fun i => decide (evd_s.eigenvalues i ≤ 0) then
      (.error .SingularOverlap, [.buildH, .evdS])
    else
      let x := buildX ora n evd_s
      let h_prime := hprimeOf ora s t v
      let evd_h := ora.evd h_prime
      let order := sortOrder ora.pcmp n evd_h.eigenvalues
      let u_sorted := reorderCols n evd_h.u order
      (.ok (DMat.mul x u_sorted),
        [.buildH, .evdS, .buildX, .transformH, .evdH, .sortEnergies,
          .buildUsorted, .buildC])

/-! ### Claims C3, C8, C2: validation and short-circuit behaviour -/

/-- C3: whenever S, T, V are not all square of the same side, `guess_hcore`
fails with `DimensionMismatch` carrying the three observed shapes, for every
electron count — in particular the shape error takes priority over any
electron-count violation. -/
theorem guess_hcore_dimension_mismatch {α : Type} [LinearOrderedField α]
    (ora : NumOracle α) (s t v : DMat α) (n_alpha n_beta : Nat)
    (h : ¬(s.nrows = s.ncols ∧ t.nrows = t.ncols ∧ v.nrows = v.ncols ∧
      t.nrows = s.nrows ∧ v.nrows = s.nrows)) :
    guess_hcore ora s t v n_alpha n_beta =
      (.error (.DimensionMismatch (s.nrows, s.ncols) (t.nrows, t.ncols)
        (v.nrows, v.ncols)), []) := by
  simp only [guess_hcore]
  rw [if_pos]
  tauto

/-- Oracle used by the concrete solver inputs: the eigendecomposition of a
matrix reports its `(0,0)` entry as every eigenvalue and the identity as
eigenvectors (exact for the 1×1 matrices used below), `powf(-0.5)` is the
identity (exact at eigenvalue 1), and `partial_cmp` is the total
comparison. -/
def witOracle : NumOracle ℚ :=
  ⟨fun m => ⟨fun _ => m.entry 0 0, ⟨m.nrows, m.ncols, fun i j => if i = j then 1 else 0⟩⟩,
    fun a => a, fun a b => some (compare a b)⟩

theorem guess_hcore_dimension_mismatch_witness :
    guess_hcore witOracle ⟨3, 2, fun _ _ => 0⟩ ⟨3, 3, fun _ _ => 0⟩
        ⟨3, 3, fun _ _ => 0⟩ 5 5 =
      (.error (.DimensionMismatch (3, 2) (3, 3) (3, 3)), []) :=
  guess_hcore_dimension_mismatch witOracle ⟨3, 2, fun _ _ => 0⟩
    ⟨3, 3, fun _ _ => 0⟩ ⟨3, 3, fun _ _ => 0⟩ 5 5 (by decide)

/-- C8: with all three matrices 0×0 and zero electron counts, `guess_hcore`
returns a 0×0 matrix without error, performs no numerical operation (empty
trace), and never reads the entries of T and V (the inputs are universally
quantified over their entry functions). -/
theorem guess_hcore_empty {α : Type} [LinearOrderedField α]
    (ora : NumOracle α) (s t v : DMat α)
    (hsr : s.nrows = 0) (hsc : s.ncols = 0) (htr : t.nrows = 0)
    (htc : t.ncols = 0) (hvr : v.nrows = 0) (hvc : v.ncols = 0) :
    guess_hcore ora s t v 0 0 = (.ok (DMat.zeros 0 0), []) := by
  simp [guess_hcore, hsr, hsc, htr, htc, hvr, hvc]

theorem guess_hcore_empty_witness :
    guess_hcore witOracle ⟨0, 0, fun _ _ => 0⟩ ⟨0, 0, fun _ _ => 0⟩
        ⟨0, 0, fun _ _ => 0⟩ 0 0 = (.ok (DMat.zeros 0 0), []) :=
  guess_hcore_empty witOracle ⟨0, 0, fun _ _ => 0⟩ ⟨0, 0, fun _ _ => 0⟩
    ⟨0, 0, fun _ _ => 0⟩ rfl rfl rfl rfl rfl rfl

/-- C2 (amended): when the shape and electron-count checks pass, `n > 0`,
and the eigendecomposition of S yields any eigenvalue `≤ 0`, `guess_hcore`
returns the singular-overlap failure before performing H's
eigendecomposition — but H = T + V has already been constructed at that
point: the trace of the failing call is exactly `[buildH, evdS]`. -/
theorem guess_hcore_singular_overlap {α : Type} [LinearOrderedField α]
    (ora : NumOracle α) (s t v : DMat α) (n_alpha n_beta : Nat)
    (hsq : s.ncols = s.nrows) (htr : t.nrows = s.nrows)
    (htc : t.ncols = s.nrows) (hvr : v.nrows = s.nrows)
    (hvc : v.ncols = s.nrows) (ha : n_alpha ≤ s.nrows) (hb : n_beta ≤ s.nrows)
    (hn : 0 < s.nrows)
    (hev : ∃ i < s.nrows, (ora.evd s).eigenvalues i ≤ 0) :
    guess_hcore ora s t v n_alpha n_beta =
      (.error .SingularOverlap, [.buildH, .evdS]) := by
  obtain ⟨i, hi, hle⟩ := hev
  simp only [guess_hcore]
  rw [if_neg (by omega), if_neg (by omega), if_neg (by omega), if_pos]
  rw [List.any_eq_true]
  exact ⟨i, List.mem_range.mpr hi, decide_eq_true hle⟩

/-- The 1×1 zero matrix, whose oracle eigendecomposition has eigenvalue 0. -/
def zeroMat1 : DMat ℚ := ⟨1, 1, fun _ _ => 0⟩

theorem guess_hcore_singular_overlap_witness :
    guess_hcore witOracle zeroMat1 zeroMat1 zeroMat1 0 0 =
      (.error .SingularOverlap, [.buildH, .evdS]) :=
  guess_hcore_singular_overlap witOracle zeroMat1 zeroMat1 zeroMat1 0 0
    rfl rfl rfl rfl rfl (by decide) (by decide) (by decide)
    ⟨0, by decide, by decide⟩

/-- C2 counterexample: a singular-overlap call on whose trace `buildH`
appears — H = T + V is constructed before the eigenvalue check, so the
failure does not happen "before constructing H" as claimed. -/
theorem guess_hcore_singular_overlap_counterexample :
    (guess_hcore witOracle zeroMat1 zeroMat1 zeroMat1 0 0).1 =
        .error .SingularOverlap ∧
      (guess_hcore witOracle zeroMat1 zeroMat1 zeroMat1 0 0).2 =
        [.buildH, .evdS] ∧
      GuessEvent.buildH ∈ (guess_hcore witOracle zeroMat1 zeroMat1 zeroMat1 0 0).2 := by
  refine ⟨?_, ?_, ?_⟩ <;>
    simp [guess_hcore, zeroMat1, witOracle]

/-! ### Claim C1: correctness of the returned coefficient matrix

The numerical content is settled in exact arithmetic: the oracle's two
eigendecompositions and its `powf(-0.5)` are assumed exact (hypotheses of
the theorem), and the orthonormality `CᵀSC = I` then holds exactly — in
particular within any numerical tolerance.  Matrices of side `n` are
transported to Mathlib's `Matrix (Fin n) (Fin n)` to carry out the
algebra. -/

/-- View the top-left `n × n` block of a `DMat` as a Mathlib matrix. -/
def DMat.toM {α : Type} (n : Nat) (a : DMat α) : Matrix (Fin n) (Fin n) α :=
  Matrix.of fun i j => a.entry i j

theorem DMat.toM_add {α : Type} [Add α] (n : Nat) (a b : DMat α) :
    (a.add b).toM n = a.toM n + b.toM n := by
  ext i j
  rfl

theorem DMat.toM_transpose {α : Type} (n : Nat) (a : DMat α) :
    (a.transpose).toM n = (a.toM n).transpose := by
  ext i j
  rfl

theorem DMat.toM_mul {α : Type} [Semiring α] (n : Nat) (a b : DMat α)
    (h : a.ncols = n) : (a.mul b).toM n = a.toM n * b.toM n := by
  ext i j
  show Finset.sum (Finset.range a.ncols) (fun k => a.entry i k * b.entry k j) = _
  rw [Matrix.mul_apply, h,
    ← Fin.sum_univ_eq_sum_range (fun k => a.entry i k * b.entry k j) n]
  rfl

theorem toM_buildX {α : Type} [Semiring α] (ora : NumOracle α) (n : Nat)
    (e : Evd α) :
    (buildX ora n e).toM n =
      (e.u.toM n) * Matrix.diagonal (fun j : Fin n => ora.invSqrt (e.eigenvalues j)) := by
  ext i j
  simp [buildX, DMat.toM, Matrix.mul_diagonal]

theorem submatrix_mul_id_left {α : Type} [Semiring α] {n : Nat}
    (A B : Matrix (Fin n) (Fin n) α) (e : Fin n → Fin n) :
    A.submatrix e id * B = (A * B).submatrix e id := by
  conv_rhs => rw [Matrix.submatrix_mul A B e id id Function.bijective_id]
  rw [Matrix.submatrix_id_id]

theorem submatrix_mul_id_right {α : Type} [Semiring α] {n : Nat}
    (A B : Matrix (Fin n) (Fin n) α) (e : Fin n → Fin n) :
    A * B.submatrix id e = (A * B).submatrix id e := by
  conv_rhs => rw [Matrix.submatrix_mul A B id id e Function.bijective_id]
  rw [Matrix.submatrix_id_id]

/-- The Boolean comparator of the energy sort agrees with `≤` when the
partial comparison is the exact total comparison. -/
theorem sort_le_iff {α : Type} [LinearOrder α] (pcmp : α → α → Option Ordering)
    (energies : Nat → α) (hcmp : ∀ a b, pcmp a b = some (compare a b))
    (a b : Nat) :
    ((match (pcmp (energies a) (energies b)).getD .eq with
      | .gt => false
      | _ => true) = true) ↔ energies a ≤ energies b := by
  rw [hcmp]
  rcases h : compare (energies a) (energies b) with _ | _ | _ <;>
    simp only [Option.getD_some, h]
  · simp [le_of_lt (compare_lt_iff_lt.mp h)]
  · simp [le_of_eq (compare_eq_iff_eq.mp h)]
  · simp [not_le.mpr (compare_gt_iff_gt.mp h)]

theorem sandwich_aux {M : Type} [Monoid M] (d l ut u : M) (h : ut * u = 1) :
    d * ut * (u * l * ut) * (u * d) = d * l * d := by
  calc d * ut * (u * l * ut) * (u * d)
      = d * (ut * u * l * (ut * u)) * d := by simp only [mul_assoc]
    _ = d * l * d := by rw [h, one_mul, mul_one]


/-- C1: for valid inputs (matching square shapes, `n > 0`, admissible
electron counts), with the oracle's eigendecompositions exact (`S = U Λ Uᵀ`
with `Uᵀ U = I` and all `λ > 0`; `H' = U' ε U'ᵀ` with `U'ᵀ U' = I`), its
`powf(-0.5)` exact on the eigenvalues of S, and its partial comparison the
exact total comparison, `guess_hcore` succeeds and returns an `n × n`
matrix `C` with `Cᵀ S C = I` exactly (hence within any numerical
tolerance) and the diagonal of `Cᵀ (T+V) C` non-decreasing from left to
right. -/
theorem guess_hcore_orthonormal_sorted {α : Type} [LinearOrderedField α]
    (ora : NumOracle α) (s t v : DMat α) (n_alpha n_beta : Nat)
    (hsq : s.ncols = s.nrows) (htr : t.nrows = s.nrows) (htc : t.ncols = s.nrows)
    (hvr : v.nrows = s.nrows) (hvc : v.ncols = s.nrows)
    (hn : 0 < s.nrows) (ha : n_alpha ≤ s.nrows) (hb : n_beta ≤ s.nrows)
    (hS : s.toM s.nrows =
      ((ora.evd s).u.toM s.nrows) *
        Matrix.diagonal (fun i : Fin s.nrows => (ora.evd s).eigenvalues i) *
        ((ora.evd s).u.toM s.nrows).transpose)
    (hUo : ((ora.evd s).u.toM s.nrows).transpose * ((ora.evd s).u.toM s.nrows) = 1)
    (hpos : ∀ i, i < s.nrows → 0 < (ora.evd s).eigenvalues i)
    (hinv : ∀ i, i < s.nrows →
      ora.invSqrt ((ora.evd s).eigenvalues i) *
          ora.invSqrt ((ora.evd s).eigenvalues i) * (ora.evd s).eigenvalues i = 1)
    (hH : (hprimeOf ora s t v).toM s.nrows =
      ((ora.evd (hprimeOf ora s t v)).u.toM s.nrows) *
        Matrix.diagonal
          (fun i : Fin s.nrows => (ora.evd (hprimeOf ora s t v)).eigenvalues i) *
        ((ora.evd (hprimeOf ora s t v)).u.toM s.nrows).transpose)
    (hU'o : ((ora.evd (hprimeOf ora s t v)).u.toM s.nrows).transpose *
      ((ora.evd (hprimeOf ora s t v)).u.toM s.nrows) = 1)
    (hcmp : ∀ a b : α, ora.pcmp a b = some (compare a b)) :
    ∃ c : DMat α,
      guess_hcore ora s t v n_alpha n_beta =
        (.ok c, [.buildH, .evdS, .buildX, .transformH, .evdH, .sortEnergies,
          .buildUsorted, .buildC]) ∧
      c.nrows = s.nrows ∧ c.ncols = s.nrows ∧
      (∀ i j : Fin s.nrows,
        ((c.transpose.mul s).mul c).entry i j = if i = j then (1 : α) else 0) ∧
      (∀ j : Nat, j + 1 < s.nrows →
        ((c.transpose.mul (t.add v)).mul c).entry j j ≤
          ((c.transpose.mul (t.add v)).mul c).entry (j + 1) (j + 1)) := by
  have hguard :
      ¬(((List.range s.nrows).any fun i =>
        decide ((ora.evd s).eigenvalues i ≤ 0)) = true) := by
    rw [List.any_eq_true]
    rintro ⟨i, hi, hdec⟩
    exact absurd (of_decide_eq_true hdec)
      (not_le.mpr (hpos i (List.mem_range.mp hi)))
  set ev := (ora.evd (hprimeOf ora s t v)).eigenvalues with hev_def
  set order := sortOrder ora.pcmp s.nrows ev with horder_def
  have horder : order.Perm (List.range s.nrows) := List.mergeSort_perm _ _
  have hlen : order.length = s.nrows := by
    rw [horder.length_eq, List.length_range]
  have hmem : ∀ k ∈ order, k < s.nrows := fun k hk =>
    List.mem_range.mp (horder.mem_iff.mp hk)
  have hnd : order.Nodup := horder.nodup_iff.mpr (List.nodup_range s.nrows)
  have hgetlt : ∀ j : Fin s.nrows, order.getD (j : Nat) 0 < s.nrows := by
    intro j
    have hj : (j : Nat) < order.length := by rw [hlen]; exact j.isLt
    rw [List.getD_eq_getElem order 0 hj]
    exact hmem _ (List.getElem_mem hj)
  set σ : Fin s.nrows → Fin s.nrows :=
    (fun j => ⟨order.getD (j : Nat) 0, hgetlt j⟩) with hσ_def
  have hσinj : Function.Injective σ := by
    intro a b hab
    have ha' : (a : Nat) < order.length := by rw [hlen]; exact a.isLt
    have hb' : (b : Nat) < order.length := by rw [hlen]; exact b.isLt
    have h1 : order.getD (a : Nat) 0 = order.getD (b : Nat) 0 :=
      congrArg Fin.val hab
    rw [List.getD_eq_getElem order 0 ha', List.getD_eq_getElem order 0 hb'] at h1
    exact Fin.ext ((List.Nodup.getElem_inj_iff hnd).mp h1)
  set e : Fin s.nrows ≃ Fin s.nrows :=
    Equiv.ofBijective σ (Finite.injective_iff_bijective.mp hσinj) with he_def
  set U := (ora.evd s).u.toM s.nrows with hU_def
  set Up := (ora.evd (hprimeOf ora s t v)).u.toM s.nrows with hUp_def
  set X := (buildX ora s.nrows (ora.evd s)).toM s.nrows with hX_def
  have hXtoM : X = U * Matrix.diagonal
      (fun j : Fin s.nrows => ora.invSqrt ((ora.evd s).eigenvalues j)) :=
    toM_buildX ora s.nrows (ora.evd s)
  set c : DMat α := DMat.mul (buildX ora s.nrows (ora.evd s))
    (reorderCols s.nrows (ora.evd (hprimeOf ora s t v)).u order) with hc_def
  have hUs : (reorderCols s.nrows (ora.evd (hprimeOf ora s t v)).u order).toM
      s.nrows = Up.submatrix id σ := by
    ext i j
    rfl
  have hctoM : c.toM s.nrows = X * Up.submatrix id σ := by
    have h1 : c.toM s.nrows =
        (buildX ora s.nrows (ora.evd s)).toM s.nrows *
          (reorderCols s.nrows (ora.evd (hprimeOf ora s t v)).u order).toM
            s.nrows :=
      DMat.toM_mul s.nrows _ _ rfl
    rw [h1, hUs, ← hX_def]
  have hXSX : X.transpose * s.toM s.nrows * X = 1 := by
    rw [hXtoM, hS, Matrix.transpose_mul, Matrix.diagonal_transpose,
      sandwich_aux _ _ _ _ hUo, Matrix.diagonal_mul_diagonal,
      Matrix.diagonal_mul_diagonal]
    have hfun : (fun i : Fin s.nrows =>
        ora.invSqrt ((ora.evd s).eigenvalues i) * (ora.evd s).eigenvalues i *
          ora.invSqrt ((ora.evd s).eigenvalues i)) =
        fun _ : Fin s.nrows => (1 : α) := by
      funext i
      have h := hinv i i.isLt
      linear_combination h
    rw [hfun]
    exact Matrix.diagonal_one
  have hXHX : X.transpose * (t.add v).toM s.nrows * X =
      Up * Matrix.diagonal (fun i : Fin s.nrows => ev i) * Up.transpose := by
    have h1 : (hprimeOf ora s t v).toM s.nrows =
        ((DMat.transpose (buildX ora s.nrows (ora.evd s))).mul
          (DMat.add t v)).toM s.nrows *
          (buildX ora s.nrows (ora.evd s)).toM s.nrows :=
      DMat.toM_mul s.nrows _ _ htc
    have h2 : ((DMat.transpose (buildX ora s.nrows (ora.evd s))).mul
        (DMat.add t v)).toM s.nrows =
        (DMat.transpose (buildX ora s.nrows (ora.evd s))).toM s.nrows *
          (DMat.add t v).toM s.nrows :=
      DMat.toM_mul s.nrows _ _ rfl
    have h3 := hH
    rw [h1, h2, DMat.toM_transpose, ← hX_def] at h3
    exact h3
  have hsplit1 : ((c.transpose.mul s).mul c).toM s.nrows =
      (c.transpose.mul s).toM s.nrows * c.toM s.nrows :=
    DMat.toM_mul s.nrows _ _ hsq
  have hsplit2 : (c.transpose.mul s).toM s.nrows =
      (c.transpose).toM s.nrows * s.toM s.nrows :=
    DMat.toM_mul s.nrows _ _ rfl
  have hM1 : ((c.transpose.mul s).mul c).toM s.nrows =
      (c.toM s.nrows).transpose * s.toM s.nrows * c.toM s.nrows := by
    rw [hsplit1, hsplit2, DMat.toM_transpose]
  have hsplit3 : ((c.transpose.mul (t.add v)).mul c).toM s.nrows =
      (c.transpose.mul (t.add v)).toM s.nrows * c.toM s.nrows :=
    DMat.toM_mul s.nrows _ _ htc
  have hsplit4 : (c.transpose.mul (t.add v)).toM s.nrows =
      (c.transpose).toM s.nrows * (t.add v).toM s.nrows :=
    DMat.toM_mul s.nrows _ _ rfl
  have hM2 : ((c.transpose.mul (t.add v)).mul c).toM s.nrows =
      (c.toM s.nrows).transpose * (t.add v).toM s.nrows * c.toM s.nrows := by
    rw [hsplit3, hsplit4, DMat.toM_transpose]
  have hCSC : (c.toM s.nrows).transpose * s.toM s.nrows * c.toM s.nrows = 1 := by
    rw [hctoM]
    calc (X * Up.submatrix id σ).transpose * s.toM s.nrows *
          (X * Up.submatrix id σ)
        = (Up.submatrix id σ).transpose * (X.transpose * s.toM s.nrows * X) *
            (Up.submatrix id σ) := by
          simp only [Matrix.transpose_mul, Matrix.mul_assoc]
      _ = (Up.submatrix id σ).transpose * (Up.submatrix id σ) := by
          rw [hXSX, Matrix.mul_one]
      _ = 1 := by
          rw [Matrix.transpose_submatrix, submatrix_mul_id_left,
            submatrix_mul_id_right, hU'o, Matrix.submatrix_submatrix]
          simp only [Function.id_comp, Function.comp_id]
          exact Matrix.submatrix_one_equiv e
  have hdiagm : (c.toM s.nrows).transpose * (t.add v).toM s.nrows *
      c.toM s.nrows = Matrix.diagonal (fun j : Fin s.nrows => ev (σ j)) := by
    rw [hctoM]
    calc (X * Up.submatrix id σ).transpose * (t.add v).toM s.nrows *
          (X * Up.submatrix id σ)
        = (Up.submatrix id σ).transpose *
            (X.transpose * (t.add v).toM s.nrows * X) * (Up.submatrix id σ) := by
          simp only [Matrix.transpose_mul, Matrix.mul_assoc]
      _ = (Up.submatrix id σ).transpose *
            (Up * Matrix.diagonal (fun i : Fin s.nrows => ev i) * Up.transpose) *
            (Up.submatrix id σ) := by rw [hXHX]
      _ = (Up.transpose.submatrix σ id * Up) *
            Matrix.diagonal (fun i : Fin s.nrows => ev i) *
            (Up.transpose * Up.submatrix id σ) := by
          simp only [Matrix.transpose_submatrix, Matrix.mul_assoc]
      _ = (1 : Matrix (Fin s.nrows) (Fin s.nrows) α).submatrix σ id *
            Matrix.diagonal (fun i : Fin s.nrows => ev i) *
            ((1 : Matrix (Fin s.nrows) (Fin s.nrows) α).submatrix id σ) := by
          rw [submatrix_mul_id_left, submatrix_mul_id_right, hU'o]
      _ = Matrix.diagonal (fun j : Fin s.nrows => ev (σ j)) := by
          rw [submatrix_mul_id_left, Matrix.one_mul, submatrix_mul_id_left,
            submatrix_mul_id_right, Matrix.mul_one, Matrix.submatrix_submatrix]
          simp only [Function.id_comp, Function.comp_id]
          exact Matrix.submatrix_diagonal_equiv _ e
  refine ⟨c, ?_, rfl, rfl, ?_, ?_⟩
  · simp only [guess_hcore]
    rw [if_neg (by omega), if_neg (by omega), if_neg (by omega), if_neg hguard]
  · intro i j
    have h2 : ((c.transpose.mul s).mul c).toM s.nrows i j =
        (1 : Matrix (Fin s.nrows) (Fin s.nrows) α) i j := by
      rw [hM1, hCSC]
    rw [Matrix.one_apply] at h2
    exact h2
  · intro j hj
    have hj0 : j < s.nrows := by omega
    have hE : ∀ p : Fin s.nrows,
        ((c.transpose.mul (t.add v)).mul c).entry p p = ev (σ p) := by
      intro p
      have h1 : ((c.transpose.mul (t.add v)).mul c).toM s.nrows p p =
          Matrix.diagonal (fun q : Fin s.nrows => ev (σ q)) p p := by
        rw [hM2, hdiagm]
      rw [Matrix.diagonal_apply_eq] at h1
      exact h1
    have hsorted : order.Pairwise (fun a b =>
        (match (ora.pcmp (ev a) (ev b)).getD .eq with
          | .gt => false
          | _ => true) = true) := by
      rw [horder_def, sortOrder]
      exact List.sorted_mergeSort
        (fun a b c' hab hbc => (sort_le_iff ora.pcmp ev hcmp a c').mpr
          (le_trans ((sort_le_iff ora.pcmp ev hcmp a b).mp hab)
            ((sort_le_iff ora.pcmp ev hcmp b c').mp hbc)))
        (fun a b => by
          rw [Bool.or_eq_true, sort_le_iff ora.pcmp ev hcmp a b,
            sort_le_iff ora.pcmp ev hcmp b a]
          exact le_total _ _)
        (List.range s.nrows)
    have hp0 : j < order.length := by omega
    have hp1 : j + 1 < order.length := by omega
    have hpair := List.pairwise_iff_get.mp hsorted ⟨j, hp0⟩ ⟨j + 1, hp1⟩
      (by exact Nat.lt_succ_self j)
    rw [sort_le_iff ora.pcmp ev hcmp] at hpair
    have hσval : ∀ (p : Nat) (hp : p < s.nrows) (hp' : p < order.length),
        ((σ ⟨p, hp⟩ : Fin s.nrows) : Nat) = order.get ⟨p, hp'⟩ := by
      intro p hp hp'
      show order.getD p 0 = order.get ⟨p, hp'⟩
      rw [List.getD_eq_getElem order 0 hp']
      rfl
    have hgoal0 := hE ⟨j, hj0⟩
    have hgoal1 := hE ⟨j + 1, hj⟩
    rw [show ((c.transpose.mul (t.add v)).mul c).entry j j =
        ((c.transpose.mul (t.add v)).mul c).entry (↑(⟨j, hj0⟩ : Fin s.nrows))
          (↑(⟨j, hj0⟩ : Fin s.nrows)) from rfl,
      show ((c.transpose.mul (t.add v)).mul c).entry (j + 1) (j + 1) =
        ((c.transpose.mul (t.add v)).mul c).entry
          (↑(⟨j + 1, hj⟩ : Fin s.nrows)) (↑(⟨j + 1, hj⟩ : Fin s.nrows)) from rfl,
      hgoal0, hgoal1, hσval j hj0 hp0, hσval (j + 1) hj hp1]
    exact hpair

/-- 1×1 input matrices for the C1 witness: S = (1), T = (2), V = (−3). -/
def oneMat1 : DMat ℚ := ⟨1, 1, fun _ _ => 1⟩

def tMat1 : DMat ℚ := ⟨1, 1, fun _ _ => 2⟩

def vMat1 : DMat ℚ := ⟨1, 1, fun _ _ => -3⟩

theorem guess_hcore_orthonormal_sorted_witness :
    ∃ c : DMat ℚ,
      guess_hcore witOracle oneMat1 tMat1 vMat1 1 1 =
        (.ok c, [.buildH, .evdS, .buildX, .transformH, .evdH, .sortEnergies,
          .buildUsorted, .buildC]) ∧
      c.nrows = oneMat1.nrows ∧ c.ncols = oneMat1.nrows ∧
      (∀ i j : Fin oneMat1.nrows,
        ((c.transpose.mul oneMat1).mul c).entry i j = if i = j then (1 : ℚ) else 0) ∧
      (∀ j : Nat, j + 1 < oneMat1.nrows →
        ((c.transpose.mul (tMat1.add vMat1)).mul c).entry j j ≤
          ((c.transpose.mul (tMat1.add vMat1)).mul c).entry (j + 1) (j + 1)) :=
  guess_hcore_orthonormal_sorted witOracle oneMat1 tMat1 vMat1 1 1
    rfl rfl rfl rfl rfl (by decide) (by decide) (by decide)
    (by
      ext i j
      fin_cases i
      fin_cases j
      simp [Matrix.mul_apply, Fin.sum_univ_one, witOracle, oneMat1, DMat.toM])
    (by
      ext i j
      fin_cases i
      fin_cases j
      simp [Matrix.mul_apply, Fin.sum_univ_one, witOracle, oneMat1, DMat.toM])
    (by
      intro i _
      norm_num [witOracle, oneMat1])
    (by
      intro i _
      norm_num [witOracle, oneMat1])
    (by
      ext i j
      fin_cases i
      fin_cases j
      simp [Matrix.mul_apply, Fin.sum_univ_one, Finset.sum_range_one, witOracle,
        oneMat1, tMat1, vMat1, DMat.toM, hprimeOf, buildX, DMat.mul, DMat.add,
        DMat.transpose])
    (by
      ext i j
      fin_cases i
      fin_cases j
      simp [Matrix.mul_apply, Fin.sum_univ_one, witOracle, oneMat1, tMat1,
        vMat1, DMat.toM])
    (fun a b => rfl)

theorem cartesian_components_canonical_witness :
    (2, 1, 0).1 + (2, 1, 0).2.1 + (2, 1, 0).2.2 = 3 ∧
      cartesian_components 2 = cartesian_components_spec 2 :=
  ⟨(cartesian_components_canonical.1 3).2.2.1 (2, 1, 0) (by decide),
    (cartesian_components_canonical.1 2).2.2.2⟩
